import Mathlib

/-!
Verification of the data-orchestration and factor/weighting pipeline of
`src/server.js` (an ETF-replication backtest server) against its
natural-language specification.

Shallow-embedding conventions used throughout this file:

* JavaScript numbers are modelled as exact rationals `ℚ`.  A value that may
  be `null`, `undefined`, a missing column, or a non-finite number
  (`NaN`/`±Infinity`) is modelled as `Option ℚ`, with `none` standing for the
  absent / non-finite case.  Arithmetic on `none` propagates `none`, and a
  comparison against `none` is `false`, matching the behaviour of `NaN` in
  JavaScript comparisons.
* Calendar dates in the provider's 8-digit `YYYYMMDD` textual form are
  modelled as natural numbers; on equal-length digit strings the
  `localeCompare` / numeric-subtraction orderings used by the source
  coincide with the numeric order on these naturals, and the source's
  `endsWith "0630"` test coincides with `d % 10000 = 630`.
* JavaScript `Array.prototype.sort` is modelled by `List.insertionSort`.
  Every list sorted by the source has pairwise-distinct keys at the points
  where order is observed, so sort stability is irrelevant.
* `[...new Set(xs)]` (first-occurrence deduplication) is modelled by
  `List.dedup` (which keeps last occurrences); the deduplicated list is
  immediately sorted and used only through membership, so the difference
  is unobservable.
-/

namespace EtfJs

/-! ## Batch Scheduler (`batchProcess`, src/server.js lines 47-61)

The JS `batchProcess(items, processor, batchSize)` walks the array in
consecutive windows of `batchSize`, runs `processor(item, globalIndex)` on
every item of the window via `Promise.all` (which collects results
positionally, regardless of completion order), and appends the window's
results to the accumulator.  The worker is modelled as a pure function
`α → ℕ → β`; `Promise.all`'s positional collection is the `mapFromIdx`
below.  With `batchSize = 0` the JS loop never advances `i` and diverges;
the embedding returns `[]` in that (unreachable, claims assume
`windowSize ≥ 1`) case so that the definition is total. -/

/-- The JS `batch.map((item, batchIndex) => processor(item, i + batchIndex))`:
map a function over a list, also passing the running index starting at `i`. -/
def mapFromIdx (f : α → Nat → β) : List α → Nat → List β
  | [], _ => []
  | x :: xs, i => f x i :: mapFromIdx f xs (i + 1)

/-- One pass of the `for (let i = 0; i < items.length; i += batchSize)` loop
of `batchProcess`, starting at global index `i`. -/
def batchProcessGo (f : α → Nat → β) (w : Nat) : List α → Nat → List β
  | [], _ => []
  | x :: xs, i =>
    if _h : w = 0 then []
    else
      mapFromIdx f ((x :: xs).take w) i ++
        batchProcessGo f w ((x :: xs).drop w) (i + w)
termination_by l _ => l.length
decreasing_by simp [List.length_drop]; omega

/-- The scheduler `batchProcess(items, processor, batchSize)` (src/server.js line 47). -/
def batchProcess (items : List α) (f : α → Nat → β) (w : Nat) : List β :=
  batchProcessGo f w items 0

/-! ## Symbol Normalizer (`stockCodes` map, src/server.js lines 477-509) -/

/-- Numeric value of a decimal digit character, `c.toNat - '0'.toNat`. -/
def digitVal (c : Char) : Nat := c.toNat - 48

/-- Value of a list of digit characters read in base 10. -/
def digitsToNat (l : List Char) : Nat :=
  l.foldl (fun n c => n * 10 + digitVal c) 0

/-- The JS `parseInt(symbol)` as used by the normalizer: read the leading run of
decimal digits; if there is none the result is `NaN`, modelled `none`.
(Leading whitespace, sign characters and non-decimal radixes never occur in
the provider's holdings `symbol` strings and are not modelled.) -/
def parseIntJs (s : String) : Option Nat :=
  match s.data.takeWhile Char.isDigit with
  | [] => none
  | c :: cs => some (digitsToNat (c :: cs))

/-- The JS `symbol.padStart(6, '0')`. -/
def padStart6 (s : String) : String :=
  if 6 ≤ s.data.length then s
  else String.mk (List.replicate (6 - s.data.length) '0' ++ s.data)

/-- The symbol-to-ts_code conversion applied to each holding symbol in the
`/api/backtest-etf` handler (src/server.js lines 477-509).  A `NaN` parse
(`none`) makes every JS range test false, landing in the default branch,
exactly as in the source. -/
def normalizeSymbol (symbol : String) : String :=
  if symbol.data.contains '.' then symbol
  else
    match parseIntJs symbol with
    | some code =>
      if 600000 ≤ code ∧ code ≤ 609999 then symbol ++ ".SH"
      else if 600000 ≤ code ∧ code ≤ 699999 then symbol ++ ".SH"
      else if code ≤ 3999 then padStart6 symbol ++ ".SZ"
      else if 300000 ≤ code ∧ code ≤ 309999 then symbol ++ ".SZ"
      else if 2000 ≤ code ∧ code ≤ 2999 then padStart6 symbol ++ ".SZ"
      else padStart6 symbol ++ ".SZ"
    | none => padStart6 symbol ++ ".SZ"

/-! ## Holdings Resolver (`getFundPortfolio`, src/server.js lines 140-193)

The JS function computes `today` from the system clock and discards every
reporting period after it; `today` is the explicit `asOf` parameter of the
embedding (the spec's data model: the selected period "must not be in the
future relative to current date").  Reporting periods are `YYYYMMDD`
naturals; `date.endsWith("0630")`/`date.endsWith("1231")` on an 8-digit
date string is `d % 10000 = 630` / `d % 10000 = 1231`. -/

/-- Descending order used by `endDates.sort((a, b) => b.localeCompare(a))`. -/
def natGe (a b : Nat) : Prop := b ≤ a

instance : DecidableRel natGe := fun a b => Nat.decLe b a

instance : IsTotal Nat natGe := ⟨fun a b => le_total b a⟩

instance : IsTrans Nat natGe := ⟨fun _ _ _ h1 h2 => le_trans h2 h1⟩

/-- The test `date.endsWith('0630') || date.endsWith('1231')` (Q2/Q4 full reports). -/
def isFullReportDate (d : Nat) : Bool := d % 10000 == 630 || d % 10000 == 1231

/-- Period selection inside `getFundPortfolio`: deduplicate the `end_date`
column, drop future periods, sort descending; prefer the newest Q2/Q4
(full-disclosure) period, else the newest period; `none` when no non-future
period remains. -/
def selectPeriod (periods : List Nat) (today : Nat) : Option Nat :=
  let endDates :=
    List.insertionSort natGe (periods.dedup.filter (fun d => d ≤ today))
  match endDates with
  | [] => none
  | d0 :: _ =>
    match endDates.filter isFullReportDate with
    | [] => some d0
    | f0 :: _ => some f0

/-- The resolver `getFundPortfolio` (src/server.js lines 140-193) on the holdings table:
each row is `(end_date, payload)` (the `end_date` column is assumed present,
as it is in the provider's `fund_portfolio` responses; the JS returns the
table unfiltered when the column is missing).  Returns `none` for an
empty table or when no valid reporting period exists, otherwise exactly the
rows of the selected period. -/
def getFundPortfolio (rows : List (Nat × α)) (today : Nat) : Option (List (Nat × α)) :=
  if rows.isEmpty then none
  else
    match selectPeriod (rows.map Prod.fst) today with
    | none => none
    | some d => some (rows.filter (fun r => r.1 == d))

/-! ## Dual-Factor Weight Engine (`calculateDualFactorWeights`,
src/server.js lines 337-423) -/

/-- Per-instrument factor record produced by the factor worker:
`{ code, dividendYield, roce, marketCap }`.  `roce = none` models the JS
`roce === null || isNaN(roce)` case; `marketCap` is carried but unused by
the engine. -/
structure FactorRecord where
  code : String
  dividendYield : ℚ
  roce : Option ℚ
  marketCap : Option ℚ
deriving DecidableEq, Repr

/-- Record after the engine's fill-in step (`processedStocks`). -/
structure ProcessedStock where
  code : String
  dividendYield : ℚ
  roce : ℚ
deriving DecidableEq, Repr

/-- The record `{ code, score }` from the composite-score step. -/
structure ScoredStock where
  code : String
  score : ℚ
deriving DecidableEq, Repr

/-- The filter `stocksFactors.filter(s => s.roce !== null && !isNaN(s.roce))`. -/
def validStocks (sf : List FactorRecord) : List FactorRecord :=
  sf.filter (fun s => s.roce.isSome)

/-- The per-record map building `processedStocks`: `s.dividendYield || 0`,
then a zero dividend yield is clamped up to `0.01`; `roce` is known
non-null here. -/
def processStock (s : FactorRecord) : ProcessedStock :=
  { code := s.code
    dividendYield := if s.dividendYield = 0 then 1 / 100 else s.dividendYield
    roce := s.roce.getD 0 }

/-- The JS `Math.min(...xs)` over a nonempty list (the engine only takes minima of
nonempty lists; the `[]` value is arbitrary). -/
def listMin : List ℚ → ℚ
  | [] => 0
  | x :: xs => xs.foldl min x

/-- The JS `Math.max(...xs)` over a nonempty list. -/
def listMax : List ℚ → ℚ
  | [] => 0
  | x :: xs => xs.foldl max x

/-- The range `maxV - minV || 1`: the min-max range with the zero-range fallback. -/
def rangeOr1 (lo hi : ℚ) : ℚ := if hi - lo = 0 then 1 else hi - lo

/-- The composite-score step: min-max normalize dividend yield and ROCE
independently over the list, average the two normalized attributes. -/
def scoreStocks (ps : List ProcessedStock) : List ScoredStock :=
  let divYields := ps.map ProcessedStock.dividendYield
  let roces := ps.map ProcessedStock.roce
  let minDiv := listMin divYields
  let maxDiv := listMax divYields
  let minRoce := listMin roces
  let maxRoce := listMax roces
  let rangeDiv := rangeOr1 minDiv maxDiv
  let rangeRoce := rangeOr1 minRoce maxRoce
  ps.map (fun s =>
    { code := s.code
      score := ((s.dividendYield - minDiv) / rangeDiv +
                (s.roce - minRoce) / rangeRoce) / 2 })

/-- The total `scores.reduce((sum, s) => sum + s.score, 0)`. -/
def totalScoreOf (scores : List ScoredStock) : ℚ :=
  (scores.map ScoredStock.score).sum

/-- The engine `calculateDualFactorWeights(stocksFactors)` (src/server.js line 338).
Returns the `weights` object as an association list in assignment order,
and `processedFactors` (the JS returns the raw input list on the
equal-weight fallback path and the processed list otherwise; the sum type
records which branch ran).  The JS `1 / stocksFactors.length` on an empty
input is `Infinity` but is never assigned to any key; in `ℚ` the
(equally never-emitted) value is `0`. -/
def calculateDualFactorWeights (sf : List FactorRecord) :
    List (String × ℚ) × (List FactorRecord ⊕ List ProcessedStock) :=
  let valid := validStocks sf
  if valid.isEmpty then
    (sf.map (fun s => (s.code, 1 / (sf.length : ℚ))), Sum.inl sf)
  else
    let processed := valid.map processStock
    let scores := scoreStocks processed
    let totalScore := totalScoreOf scores
    (scores.map (fun s =>
        (s.code, if 0 < totalScore then s.score / totalScore
                 else 1 / (scores.length : ℚ))),
      Sum.inr processed)

/-! ## Net-Value Aggregator (`calculatePortfolioNetValue`,
src/server.js lines 280-335, and `calculateETFNetValue`, lines 425-444)

Table rows are modelled with their named columns; a column value that is
missing or `null` is `none`.  A JS arithmetic result that is non-finite
(`NaN` from an absent operand or `±Infinity`/`NaN` from a zero divisor) is
modelled as `none`; any comparison with it is `false`. -/

/-- Falsy-chain `a || b` on possibly-absent numbers: `a` unless `a` is
absent or `0`. -/
def jsOr (a b : Option ℚ) : Option ℚ :=
  match a with
  | some x => if x = 0 then b else some x
  | none => b

/-- Division `a / b` with non-finite results (absent operand, zero divisor)
collapsed to `none`. -/
def jsDivOpt (a b : Option ℚ) : Option ℚ :=
  match a, b with
  | some x, some y => if y = 0 then none else some (x / y)
  | _, _ => none

/-- Addition with non-finite poisoning (`dayData.sum += dailyValue`). -/
def jsAdd (a b : Option ℚ) : Option ℚ :=
  match a, b with
  | some x, some y => some (x + y)
  | _, _ => none

/-- One row of a stock's `daily` price table. -/
structure PriceRow where
  trade_date : Nat
  close : Option ℚ
deriving DecidableEq, Repr

/-- One element of the `stocksData` array: `{ code, data }`, where `data`
is `null` on a failed fetch, else the row list of the table.  (The JS
`data.items`/`data.fields` pair is the row list with named columns.) -/
structure StockData where
  code : String
  data : Option (List PriceRow)
deriving DecidableEq, Repr

/-- Ascending date order used by `items.sort((a, b) => a[dateIdx] - b[dateIdx])`. -/
def priceRowLe (a b : PriceRow) : Prop := a.trade_date ≤ b.trade_date

instance : DecidableRel priceRowLe := fun a b => Nat.decLe a.trade_date b.trade_date

/-- Ascending date order of `netValueData.sort((a, b) => a.date.localeCompare(b.date))`. -/
def dateLe (a b : Nat × Option ℚ) : Prop := a.1 ≤ b.1

instance : DecidableRel dateLe := fun a b => Nat.decLe a.1 b.1

instance : IsTotal (Nat × Option ℚ) dateLe := ⟨fun a b => le_total a.1 b.1⟩

instance : IsTrans (Nat × Option ℚ) dateLe := ⟨fun _ _ _ h1 h2 => le_trans h1 h2⟩

/-- The `dateMap` update: add a contribution `v` under key `date`, summing with
any existing entry (the JS also tracks a `count` per date, which nothing
reads; it is omitted). -/
def insertAdd : List (Nat × Option ℚ) → Nat → Option ℚ → List (Nat × Option ℚ)
  | [], d, v => [(d, v)]
  | (d0, v0) :: rest, d, v =>
    if d0 = d then (d0, jsAdd v0 v) :: rest
    else (d0, v0) :: insertAdd rest d v

/-- One stock's contribution pass: sort its rows by date, take the earliest
close as `initialPrice`, and add `(close / initialPrice) * weight` to the
date map for every row. -/
def stockContrib (weight : ℚ) (rows : List PriceRow)
    (m : List (Nat × Option ℚ)) : List (Nat × Option ℚ) :=
  match List.insertionSort priceRowLe rows with
  | [] => m
  | r0 :: rest =>
    (r0 :: rest).foldl
      (fun acc r =>
        insertAdd acc r.trade_date
          ((jsDivOpt r.close r0.close).map (fun x => x * weight)))
      m

/-- The merged, date-sorted (but not yet normalized) `netValueData` of
`calculatePortfolioNetValue`: stocks with `null`/empty data or zero weight
are skipped, the rest contribute through `stockContrib`. -/
def mergedNetValue (stocksData : List StockData) (weights : String → ℚ) :
    List (Nat × Option ℚ) :=
  List.insertionSort dateLe
    (stocksData.foldl
      (fun m stock =>
        match stock.data with
        | none => m
        | some [] => m
        | some (r :: rs) =>
          if weights stock.code = 0 then m
          else stockContrib (weights stock.code) (r :: rs) m)
      [])

/-- The aggregator `calculatePortfolioNetValue(stocksData, weights)` (src/server.js
line 281).  `weights` is the weight object read as a total function
(`weights[stock.code] || 0`).  The series is normalized by its first value
only when that value is a number `> 0` (a `NaN` first value fails the
comparison and leaves the series unnormalized, as in JS). -/
def calculatePortfolioNetValue (stocksData : List StockData)
    (weights : String → ℚ) : List (Nat × Option ℚ) :=
  match mergedNetValue stocksData weights with
  | [] => []
  | (d0, v0) :: rest =>
    match v0 with
    | some iv =>
      if 0 < iv then
        ((d0, v0) :: rest).map (fun p => (p.1, p.2.map (fun x => x / iv)))
      else (d0, v0) :: rest
    | none => (d0, v0) :: rest

/-- One row of the fund's `fund_daily` table, with the two candidate
value columns. -/
structure EtfRow where
  trade_date : Nat
  nav : Option ℚ
  close : Option ℚ
deriving DecidableEq, Repr

/-- Ascending date order used by the ETF row sort. -/
def etfRowLe (a b : EtfRow) : Prop := a.trade_date ≤ b.trade_date

instance : DecidableRel etfRowLe := fun a b => Nat.decLe a.trade_date b.trade_date

/-- The transform `calculateETFNetValue(etfData)` (src/server.js line 426): sort by date,
take `nav || close || 1` of the earliest row as the base, and emit
`(nav || close) / base` per row.  A `null`/empty table gives `[]`.  Note
the `|| 1` fallback guards only the denominator: a non-first row with both
fields absent has numerator `undefined`, so its emitted value is `NaN`
(`none`). -/
def calculateETFNetValue (rows : List EtfRow) : List (Nat × Option ℚ) :=
  match List.insertionSort etfRowLe rows with
  | [] => []
  | r0 :: rest =>
    let initialValue := jsOr (jsOr r0.nav r0.close) (some 1)
    (r0 :: rest).map (fun r => (r.trade_date, jsDivOpt (jsOr r.nav r.close) initialValue))

/-! ## ROCE computation (factor worker of `/api/backtest-etf`,
src/server.js lines 629-637)

`ebit`, `totalAssets` and `currentLiab` are the worker's local variables
after the extraction fallback chains (EBIT → operating profit → total
profit; current liabilities → implied non-equity).  The guard
`if (ebit && totalAssets && currentLiab)` is JS truthiness: present and
nonzero. -/

/-- JS truthiness of a possibly-absent number. -/
def truthyO : Option ℚ → Bool
  | none => false
  | some x => decide (x ≠ 0)

/-- Lines 629-637: `roce` stays `null` unless all three inputs are truthy
and capital employed `totalAssets - currentLiab` is strictly positive, in
which case `roce = ebit / capitalEmployed * 100`. -/
def computeRoce (ebit totalAssets currentLiab : Option ℚ) : Option ℚ :=
  if truthyO ebit && truthyO totalAssets && truthyO currentLiab then
    let capitalEmployed := totalAssets.getD 0 - currentLiab.getD 0
    if 0 < capitalEmployed then
      some (ebit.getD 0 / capitalEmployed * 100)
    else none
  else none

/-! ## Theorems -/

/-! ### C1 — Batch Scheduler ordering -/

theorem mapFromIdx_length (f : α → Nat → β) :
    ∀ (l : List α) (i : Nat), (mapFromIdx f l i).length = l.length
  | [], _ => rfl
  | _ :: xs, i => by simp [mapFromIdx, mapFromIdx_length f xs (i + 1)]

theorem mapFromIdx_append (f : α → Nat → β) (l₁ l₂ : List α) :
    ∀ i : Nat,
      mapFromIdx f (l₁ ++ l₂) i = mapFromIdx f l₁ i ++ mapFromIdx f l₂ (i + l₁.length) := by
  induction l₁ with
  | nil => intro i; simp [mapFromIdx]
  | cons x xs ih =>
    intro i
    have h : i + 1 + xs.length = i + (xs.length + 1) := by omega
    simp only [List.cons_append, mapFromIdx, List.append_eq, List.length_cons,
      ih (i + 1), h]

theorem mapFromIdx_getElem? (f : α → Nat → β) :
    ∀ (l : List α) (j i : Nat),
      (mapFromIdx f l j)[i]? = (l[i]?).map (fun x => f x (j + i))
  | [], _, _ => by simp [mapFromIdx]
  | x :: xs, j, 0 => by simp [mapFromIdx]
  | x :: xs, j, i + 1 => by
    have h : j + 1 + i = j + (i + 1) := by omega
    simp only [mapFromIdx, List.getElem?_cons_succ, mapFromIdx_getElem? f xs (j + 1) i, h]

/-- For a positive window size, the window decomposition of `batchProcess`
collapses to a single indexed map over the whole item list. -/
theorem batchProcessGo_eq (f : α → Nat → β) {w : Nat} (hw : w ≠ 0) :
    ∀ (n : Nat) (l : List α), l.length ≤ n → ∀ i : Nat,
      batchProcessGo f w l i = mapFromIdx f l i := by
  intro n
  induction n with
  | zero =>
    intro l hl i
    have h0 : l = [] := List.eq_nil_of_length_eq_zero (Nat.le_zero.mp hl)
    subst h0
    simp [batchProcessGo, mapFromIdx]
  | succ n ih =>
    intro l hl i
    match l with
    | [] => simp [batchProcessGo, mapFromIdx]
    | x :: xs =>
      rw [batchProcessGo, dif_neg hw]
      have hlen : ((x :: xs).drop w).length ≤ n := by
        simp only [List.length_drop, List.length_cons]
        simp only [List.length_cons] at hl
        omega
      rw [ih ((x :: xs).drop w) hlen (i + w)]
      by_cases hwl : w ≤ (x :: xs).length
      · conv_rhs => rw [← List.take_append_drop w (x :: xs)]
        rw [mapFromIdx_append]
        congr 2
        rw [List.length_take]
        omega
      · have hle : (x :: xs).length ≤ w := le_of_lt (lt_of_not_le hwl)
        have hd : (x :: xs).drop w = [] := List.drop_eq_nil_of_le hle
        have ht : (x :: xs).take w = x :: xs := List.take_of_length_le hle
        simp [hd, ht, mapFromIdx]

/-- C1: for every non-empty item list and `windowSize ≥ 1`, `batchProcess`
returns one result per input item, and the result at position `i` is the
worker's result for the item at position `i` (the worker is a function, so
the positional collection of `Promise.all` is order-independent by
construction). -/
theorem batchProcess_preserves_order (items : List α) (f : α → Nat → β) (w : Nat)
    (_hne : items ≠ []) (hw : 1 ≤ w) :
    (batchProcess items f w).length = items.length ∧
    ∀ i : Nat, (h : i < items.length) →
      (batchProcess items f w)[i]? = some (f items[i] i) := by
  have hkey : batchProcess items f w = mapFromIdx f items 0 :=
    batchProcessGo_eq f (by omega) items.length items le_rfl 0
  refine ⟨?_, ?_⟩
  · rw [hkey, mapFromIdx_length]
  · intro i h
    rw [hkey, mapFromIdx_getElem?, List.getElem?_eq_getElem h]
    simp

/-- Witness for C1 at `items = [10, 20, 30]`, `worker = (x, i) ↦ x + i`,
`windowSize = 2`. -/
theorem batchProcess_preserves_order_witness :
    ([10, 20, 30] ≠ ([] : List Nat)) ∧ 1 ≤ 2 ∧
    (batchProcess [10, 20, 30] (fun x i => x + i) 2).length = 3 ∧
    (batchProcess [10, 20, 30] (fun x i => x + i) 2)[1]? = some 21 := by
  have h := batchProcess_preserves_order [10, 20, 30] (fun x i => x + i) 2
    (by decide) (by decide)
  refine ⟨by decide, by decide, h.1, ?_⟩
  rw [h.2 1 (by decide)]
  rfl

/-! ### C8, C9 — Symbol Normalizer -/

theorem digitVal_le_nine (c : Char) (h : c.isDigit = true) : digitVal c ≤ 9 := by
  simp [Char.isDigit] at h
  exact Nat.sub_le_of_le_add h.2

theorem digits_foldl_lt :
    ∀ (l : List Char), (∀ c ∈ l, c.isDigit = true) →
      ∀ n : Nat, l.foldl (fun n c => n * 10 + digitVal c) n < (n + 1) * 10 ^ l.length := by
  intro l
  induction l with
  | nil => intro _ n; simp
  | cons c cs ih =>
    intro hd n
    have hc : digitVal c ≤ 9 := digitVal_le_nine c (hd c (by simp))
    have h1 := ih (fun x hx => hd x (by simp [hx])) (n * 10 + digitVal c)
    calc (c :: cs).foldl (fun n c => n * 10 + digitVal c) n
        = cs.foldl (fun n c => n * 10 + digitVal c) (n * 10 + digitVal c) := rfl
      _ < (n * 10 + digitVal c + 1) * 10 ^ cs.length := h1
      _ ≤ ((n + 1) * 10) * 10 ^ cs.length := by
          have : n * 10 + digitVal c + 1 ≤ (n + 1) * 10 := by omega
          exact Nat.mul_le_mul_right _ this
      _ = (n + 1) * 10 ^ (c :: cs).length := by
          simp [List.length_cons, pow_succ]
          ring

/-- A parsed symbol value is bounded by `10 ^ (number of characters)`. -/
theorem parseIntJs_lt (s : String) (v : Nat) (hp : parseIntJs s = some v) :
    v < 10 ^ s.data.length := by
  unfold parseIntJs at hp
  cases hpre : s.data.takeWhile Char.isDigit with
  | nil => rw [hpre] at hp; exact absurd hp (by simp)
  | cons c cs =>
    rw [hpre] at hp
    have hv : v = digitsToNat (c :: cs) := by
      simpa using hp.symm
    have hdig : ∀ x ∈ c :: cs, x.isDigit = true := by
      intro x hx
      rw [← hpre] at hx
      exact List.mem_takeWhile_imp hx
    have hlt : digitsToNat (c :: cs) < 10 ^ (c :: cs).length := by
      have := digits_foldl_lt (c :: cs) hdig 0
      simpa [digitsToNat] using this
    have hle : (c :: cs).length ≤ s.data.length := by
      rw [← hpre]
      exact (List.takeWhile_sublist _).length_le
    calc v = digitsToNat (c :: cs) := hv
      _ < 10 ^ (c :: cs).length := hlt
      _ ≤ 10 ^ s.data.length := Nat.pow_le_pow_right (by omega) hle

/-- A symbol whose parsed value is at least `100000` has at least 6
characters, so `padStart(6, '0')` leaves it unchanged. -/
theorem parseIntJs_length_ge (s : String) (v : Nat) (hp : parseIntJs s = some v)
    (hv : 100000 ≤ v) : 6 ≤ s.data.length := by
  have h1 := parseIntJs_lt s v hp
  by_contra hcon
  have h2 : s.data.length ≤ 5 := by omega
  have h3 : (10 : Nat) ^ s.data.length ≤ 10 ^ 5 := Nat.pow_le_pow_right (by omega) h2
  omega

theorem padStart6_of_long (s : String) (h : 6 ≤ s.data.length) : padStart6 s = s := by
  unfold padStart6
  rw [if_pos h]

/-- C8: normalization is the identity on any symbol that already contains
the exchange separator, so normalizing an already-normalized code is the
identity. -/
theorem normalizeSymbol_qualified_unchanged (s : String)
    (h : s.data.contains '.' = true) : normalizeSymbol s = s := by
  unfold normalizeSymbol
  rw [if_pos h]

/-- Witness for C8 at the already-qualified code `"600000.SH"`. -/
theorem normalizeSymbol_qualified_unchanged_witness :
    ("600000.SH".data.contains '.' = true) ∧ normalizeSymbol "600000.SH" = "600000.SH" :=
  ⟨by decide, normalizeSymbol_qualified_unchanged "600000.SH" (by decide)⟩

/-- C9: on a separator-free symbol that parses as an integer `v`, the
normalizer returns the symbol left-padded to 6 characters with the suffix
`".SH"` exactly when `600000 ≤ v ≤ 699999` and `".SZ"` otherwise (the JS
`.SH` and `300000-309999` branches skip the explicit pad, but a parsed
value that large forces at least 6 characters, so the pad is a no-op
there). -/
theorem normalizeSymbol_ranges (s : String) (v : Nat)
    (hdot : s.data.contains '.' = false) (hp : parseIntJs s = some v) :
    normalizeSymbol s =
      padStart6 s ++ (if 600000 ≤ v ∧ v ≤ 699999 then ".SH" else ".SZ") := by
  unfold normalizeSymbol
  rw [if_neg (by rw [hdot]; decide), hp]
  dsimp only
  by_cases h1 : 600000 ≤ v ∧ v ≤ 609999
  · have hpad := padStart6_of_long s (parseIntJs_length_ge s v hp (by omega))
    rw [if_pos h1, if_pos (by omega : 600000 ≤ v ∧ v ≤ 699999), hpad]
  · rw [if_neg h1]
    by_cases h2 : 600000 ≤ v ∧ v ≤ 699999
    · have hpad := padStart6_of_long s (parseIntJs_length_ge s v hp (by omega))
      rw [if_pos h2, if_pos h2, hpad]
    · rw [if_neg h2, if_neg h2]
      by_cases h3 : v ≤ 3999
      · rw [if_pos h3]
      · rw [if_neg h3]
        by_cases h4 : 300000 ≤ v ∧ v ≤ 309999
        · have hpad := padStart6_of_long s (parseIntJs_length_ge s v hp (by omega))
          rw [if_pos h4, hpad]
        · rw [if_neg h4]
          by_cases h5 : 2000 ≤ v ∧ v ≤ 2999
          · rw [if_pos h5]
          · rw [if_neg h5]

/-- Witness for C9 at the short Shenzhen code `"914"`. -/
theorem normalizeSymbol_ranges_witness :
    ("914".data.contains '.' = false) ∧ parseIntJs "914" = some 914 ∧
    normalizeSymbol "914" = "000914.SZ" := by
  refine ⟨by decide, by decide, ?_⟩
  have h := normalizeSymbol_ranges "914" 914 (by decide) (by decide)
  rw [h]
  decide

/-! ### C2 — Holdings Resolver -/

theorem selectPeriod_sound (periods : List Nat) (today d : Nat)
    (h : selectPeriod periods today = some d) :
    d ∈ periods ∧ d ≤ today ∧
    ((∃ x ∈ periods, x ≤ today ∧ isFullReportDate x = true) →
        isFullReportDate d = true ∧
        ∀ x ∈ periods, x ≤ today → isFullReportDate x = true → x ≤ d) ∧
    ((∀ x ∈ periods, x ≤ today → isFullReportDate x = false) →
        ∀ x ∈ periods, x ≤ today → x ≤ d) := by
  unfold selectPeriod at h
  have hperm : List.Perm
      (List.insertionSort natGe (periods.dedup.filter (fun d => d ≤ today)))
      (periods.dedup.filter (fun d => d ≤ today)) :=
    List.perm_insertionSort natGe _
  have hsorted : List.Sorted natGe
      (List.insertionSort natGe (periods.dedup.filter (fun d => d ≤ today))) :=
    List.sorted_insertionSort natGe _
  have hmem : ∀ x, x ∈ List.insertionSort natGe (periods.dedup.filter (fun d => d ≤ today)) ↔
      (x ∈ periods ∧ x ≤ today) := by
    intro x
    rw [hperm.mem_iff, List.mem_filter, List.mem_dedup]
    simp
  cases hE : List.insertionSort natGe (periods.dedup.filter (fun d => d ≤ today)) with
  | nil =>
    rw [hE] at h
    exact absurd h (by simp)
  | cons d0 rest =>
    rw [hE] at h hsorted hmem
    dsimp only at h
    cases hF : (d0 :: rest).filter isFullReportDate with
    | nil =>
      rw [hF] at h
      simp only [Option.some.injEq] at h
      subst h
      have hd0 := (hmem d0).mp (by simp)
      refine ⟨hd0.1, hd0.2, ?_, ?_⟩
      · rintro ⟨x, hxP, hxT, hxF⟩
        have hxE : x ∈ d0 :: rest := (hmem x).mpr ⟨hxP, hxT⟩
        have : x ∈ (d0 :: rest).filter isFullReportDate := List.mem_filter.mpr ⟨hxE, hxF⟩
        rw [hF] at this
        exact absurd this (by simp)
      · intro _ x hxP hxT
        have hxE : x ∈ d0 :: rest := (hmem x).mpr ⟨hxP, hxT⟩
        rcases List.mem_cons.mp hxE with h1 | h1
        · omega
        · exact List.rel_of_sorted_cons hsorted x h1
    | cons f0 fs =>
      rw [hF] at h
      simp only [Option.some.injEq] at h
      subst h
      have hf0 : f0 ∈ (d0 :: rest).filter isFullReportDate := by rw [hF]; simp
      have hf0' := List.mem_filter.mp hf0
      have hdmem := (hmem f0).mp hf0'.1
      refine ⟨hdmem.1, hdmem.2, ?_, ?_⟩
      · intro _
        refine ⟨hf0'.2, ?_⟩
        intro x hxP hxT hxF
        have hxE : x ∈ d0 :: rest := (hmem x).mpr ⟨hxP, hxT⟩
        have hxf : x ∈ (d0 :: rest).filter isFullReportDate := List.mem_filter.mpr ⟨hxE, hxF⟩
        rw [hF] at hxf
        have hsf : List.Sorted natGe (f0 :: fs) := by
          rw [← hF]
          exact hsorted.filter _
        rcases List.mem_cons.mp hxf with h1 | h1
        · omega
        · exact List.rel_of_sorted_cons hsf x h1
      · intro hnone
        exact absurd hf0'.2 (by rw [hnone f0 hdmem.1 hdmem.2]; simp)

/-- C2: the Holdings Resolver never selects a reporting period later than
`asOf` (the current date the JS computes); among non-future periods it
selects the most recent one ending in `0630`/`1231` when such a period
exists and the most recent period overall otherwise; `getFundPortfolio`
returns exactly the rows of the selected period; and the two concrete
instances from the spec hold. -/
theorem holdingsResolver_spec :
    (∀ (periods : List Nat) (today d : Nat), selectPeriod periods today = some d →
      d ∈ periods ∧ d ≤ today ∧
      ((∃ x ∈ periods, x ≤ today ∧ isFullReportDate x = true) →
          isFullReportDate d = true ∧
          ∀ x ∈ periods, x ≤ today → isFullReportDate x = true → x ≤ d) ∧
      ((∀ x ∈ periods, x ≤ today → isFullReportDate x = false) →
          ∀ x ∈ periods, x ≤ today → x ≤ d)) ∧
    (∀ (β : Type) (rows : List (Nat × β)) (today : Nat) (out : List (Nat × β)),
      getFundPortfolio rows today = some out →
      ∃ d, selectPeriod (rows.map Prod.fst) today = some d ∧
        out = rows.filter (fun r => r.1 == d)) ∧
    selectPeriod [20230331, 20230630, 20231231] 20240101 = some 20231231 ∧
    selectPeriod [20230331] 20240101 = some 20230331 := by
  refine ⟨selectPeriod_sound, ?_, by decide, by decide⟩
  intro β rows today out h
  unfold getFundPortfolio at h
  by_cases he : rows.isEmpty
  · rw [if_pos he] at h
    exact absurd h (by simp)
  · rw [if_neg he] at h
    cases hsel : selectPeriod (rows.map Prod.fst) today with
    | none => rw [hsel] at h; exact absurd h (by simp)
    | some d =>
      rw [hsel] at h
      simp only [Option.some.injEq] at h
      exact ⟨d, rfl, h.symm⟩

/-- Witness for C2: its inner hypotheses discharged at the spec's concrete
period set. -/
theorem holdingsResolver_spec_witness :
    20231231 ∈ [20230331, 20230630, 20231231] ∧ 20231231 ≤ 20240101 := by
  have h := holdingsResolver_spec.1 [20230331, 20230630, 20231231] 20240101 20231231
    holdingsResolver_spec.2.2.1
  exact ⟨h.1, h.2.1⟩

/-! ### C6 — ROCE computation -/

/-- C6: with all three inputs present and nonzero and capital employed
strictly positive, the worker computes `ROCE = EBIT / capitalEmployed * 100`;
with any required input missing or capital employed not strictly positive,
the ROCE stays absent (`none`), never coerced to zero. -/
theorem computeRoce_spec :
    (∀ e ta cl : ℚ, e ≠ 0 → ta ≠ 0 → cl ≠ 0 → 0 < ta - cl →
        computeRoce (some e) (some ta) (some cl) = some (e / (ta - cl) * 100)) ∧
    (∀ e ta cl : Option ℚ,
        (e = none ∨ ta = none ∨ cl = none ∨
          (∀ x y : ℚ, ta = some x → cl = some y → x - y ≤ 0)) →
        computeRoce e ta cl = none) := by
  constructor
  · intro e ta cl he hta hcl hce
    simp [computeRoce, truthyO, he, hta, hcl, hce]
  · intro e ta cl h
    match e, ta, cl with
    | none, ta, cl => simp [computeRoce, truthyO]
    | some e1, none, cl => simp [computeRoce, truthyO]
    | some e1, some ta1, none => simp [computeRoce, truthyO]
    | some e1, some ta1, some cl1 =>
      have hle : ta1 - cl1 ≤ 0 := by
        rcases h with h | h | h | h
        · exact absurd h (by simp)
        · exact absurd h (by simp)
        · exact absurd h (by simp)
        · exact h ta1 cl1 rfl rfl
      have hnl : ¬ (0 < ta1 - cl1) := not_lt.mpr hle
      cases hcond : (truthyO (some e1) && truthyO (some ta1) && truthyO (some cl1)) with
      | false => simp [computeRoce, hcond]
      | true => simp [computeRoce, hcond, hnl]

/-- Witness for C6 at the spec's concrete instance: EBIT 100, total assets
1000, current liabilities 200 give ROCE `12.5 = 25/2`. -/
theorem computeRoce_spec_witness :
    computeRoce (some 100) (some 1000) (some 200) = some (25 / 2) := by
  have h := computeRoce_spec.1 100 1000 200 (by norm_num) (by norm_num) (by norm_num)
    (by norm_num)
  rw [h]
  norm_num

/-! ### C10 — Weight engine on the empty universe -/

/-- C10: on an empty factor-record list the engine takes the equal-weight
fallback branch (`Sum.inl` marks that branch) and assigns no entries at
all, so no infinite or `NaN` weight reaches the output. -/
theorem calculateDualFactorWeights_empty :
    calculateDualFactorWeights [] = ([], Sum.inl []) := by
  decide

/-! ### C4, C5 — Dual-Factor Weight Engine -/
theorem foldl_min_le_init : ∀ (l : List ℚ) (a : ℚ), l.foldl min a ≤ a := by
  intro l
  induction l with
  | nil => intro a; simp
  | cons b bs ih =>
    intro a
    calc (b :: bs).foldl min a = bs.foldl min (min a b) := rfl
      _ ≤ min a b := ih (min a b)
      _ ≤ a := min_le_left _ _

theorem foldl_min_le_mem : ∀ (l : List ℚ) (a x : ℚ), x ∈ l → l.foldl min a ≤ x := by
  intro l
  induction l with
  | nil => intro a x hx; exact absurd hx (by simp)
  | cons b bs ih =>
    intro a x hx
    rcases List.mem_cons.mp hx with h1 | h1
    · subst h1
      calc (x :: bs).foldl min a = bs.foldl min (min a x) := rfl
        _ ≤ min a x := foldl_min_le_init bs (min a x)
        _ ≤ x := min_le_right _ _
    · exact ih (min a b) x h1

theorem listMin_le (l : List ℚ) (x : ℚ) (hx : x ∈ l) : listMin l ≤ x := by
  cases l with
  | nil => exact absurd hx (by simp)
  | cons a as =>
    rcases List.mem_cons.mp hx with h1 | h1
    · subst h1; exact foldl_min_le_init as x
    · exact foldl_min_le_mem as a x h1

theorem init_le_foldl_max : ∀ (l : List ℚ) (a : ℚ), a ≤ l.foldl max a := by
  intro l
  induction l with
  | nil => intro a; simp
  | cons b bs ih =>
    intro a
    calc a ≤ max a b := le_max_left _ _
      _ ≤ bs.foldl max (max a b) := ih (max a b)

theorem mem_le_foldl_max : ∀ (l : List ℚ) (a x : ℚ), x ∈ l → x ≤ l.foldl max a := by
  intro l
  induction l with
  | nil => intro a x hx; exact absurd hx (by simp)
  | cons b bs ih =>
    intro a x hx
    rcases List.mem_cons.mp hx with h1 | h1
    · subst h1
      calc x ≤ max a x := le_max_right _ _
        _ ≤ bs.foldl max (max a x) := init_le_foldl_max bs (max a x)
    · exact ih (max a b) x h1

theorem le_listMax (l : List ℚ) (x : ℚ) (hx : x ∈ l) : x ≤ listMax l := by
  cases l with
  | nil => exact absurd hx (by simp)
  | cons a as =>
    rcases List.mem_cons.mp hx with h1 | h1
    · subst h1; exact init_le_foldl_max as x
    · exact mem_le_foldl_max as a x h1

theorem normalized_bounds (lo hi x : ℚ) (h1 : lo ≤ x) (h2 : x ≤ hi) :
    0 ≤ (x - lo) / rangeOr1 lo hi ∧ (x - lo) / rangeOr1 lo hi ≤ 1 := by
  unfold rangeOr1
  by_cases h : hi - lo = 0
  · rw [if_pos h]
    have hx : x - lo = 0 := by linarith
    rw [hx]
    norm_num
  · rw [if_neg h]
    have hpos : 0 < hi - lo := lt_of_le_of_ne (by linarith) (Ne.symm h)
    constructor
    · exact div_nonneg (by linarith) (le_of_lt hpos)
    · rw [div_le_one hpos]
      linarith

theorem scoreStocks_bounds (ps : List ProcessedStock) :
    ∀ sc ∈ scoreStocks ps, 0 ≤ sc.score ∧ sc.score ≤ 1 := by
  intro sc hsc
  simp only [scoreStocks, List.mem_map] at hsc
  obtain ⟨s, hs, rfl⟩ := hsc
  have hdy : s.dividendYield ∈ ps.map ProcessedStock.dividendYield :=
    List.mem_map_of_mem _ hs
  have hrc : s.roce ∈ ps.map ProcessedStock.roce := List.mem_map_of_mem _ hs
  have hb1 := normalized_bounds (listMin (ps.map ProcessedStock.dividendYield))
    (listMax (ps.map ProcessedStock.dividendYield)) s.dividendYield
    (listMin_le _ _ hdy) (le_listMax _ _ hdy)
  have hb2 := normalized_bounds (listMin (ps.map ProcessedStock.roce))
    (listMax (ps.map ProcessedStock.roce)) s.roce
    (listMin_le _ _ hrc) (le_listMax _ _ hrc)
  constructor
  · dsimp only
    linarith [hb1.1, hb2.1]
  · dsimp only
    linarith [hb1.2, hb2.2]

theorem scoreStocks_length (ps : List ProcessedStock) :
    (scoreStocks ps).length = ps.length := by
  simp [scoreStocks]

theorem scoreStocks_codes (ps : List ProcessedStock) :
    ∀ sc ∈ scoreStocks ps, ∃ q ∈ ps, sc.code = q.code := by
  intro sc hsc
  simp only [scoreStocks, List.mem_map] at hsc
  obtain ⟨s, hs, rfl⟩ := hsc
  exact ⟨s, hs, rfl⟩

theorem scores_sum_div (l : List ScoredStock) (c : ℚ) :
    (l.map (fun s => s.score / c)).sum = (l.map ScoredStock.score).sum / c := by
  induction l with
  | nil => simp
  | cons a as ih => simp [ih, add_div]

theorem sum_map_const_q (l : List ScoredStock) (c : ℚ) :
    (l.map (fun _ => c)).sum = l.length * c := by
  induction l with
  | nil => simp
  | cons a as ih =>
    simp only [List.map_cons, List.sum_cons, ih, List.length_cons]
    push_cast
    ring

theorem sum_snd_scores (l : List ScoredStock) (f : ScoredStock → ℚ) :
    ((l.map (fun s => (s.code, f s))).map Prod.snd).sum = (l.map f).sum := by
  induction l with
  | nil => simp
  | cons a as ih => simp only [List.map_cons, List.sum_cons, ih]

theorem dualFactorWeights_eq (sf : List FactorRecord)
    (hne : (validStocks sf).isEmpty = false) :
    (calculateDualFactorWeights sf).1 =
      (scoreStocks ((validStocks sf).map processStock)).map
        (fun s => (s.code,
          if 0 < totalScoreOf (scoreStocks ((validStocks sf).map processStock))
          then s.score / totalScoreOf (scoreStocks ((validStocks sf).map processStock))
          else 1 / ((scoreStocks ((validStocks sf).map processStock)).length : ℚ))) := by
  simp [calculateDualFactorWeights, hne]

/-- C4: when no record has a present ROCE value, every instrument of the
original input list receives the equal weight `1 / N` with `N` the length
of the original list. -/
theorem dualFactorWeights_all_absent (sf : List FactorRecord) (_hne : sf ≠ [])
    (hall : ∀ s ∈ sf, s.roce = none) :
    (calculateDualFactorWeights sf).1 =
      sf.map (fun s => (s.code, 1 / (sf.length : ℚ))) := by
  have hv : validStocks sf = [] := by
    unfold validStocks
    rw [List.filter_eq_nil_iff]
    intro a ha
    simp [hall a ha]
  simp [calculateDualFactorWeights, hv]

/-- Witness for C4 at a two-record universe with both ROCE values absent. -/
theorem dualFactorWeights_all_absent_witness :
    (calculateDualFactorWeights
        [⟨"A", 1, none, none⟩, ⟨"B", 2, none, none⟩]).1 =
      [("A", 1 / 2), ("B", 1 / 2)] := by
  have h := dualFactorWeights_all_absent
    [⟨"A", 1, none, none⟩, ⟨"B", 2, none, none⟩] (by decide) (by decide)
  rw [h]
  norm_num

/-- C5: with at least one present ROCE value, every emitted weight lies in
`[0, 1]`, the emitted weights sum to exactly `1`, every entry belongs to an
instrument of the ROCE-valid subset (so instruments outside it receive no
entry), and each weight is its composite score over the total score, or
`1 /` subset size when the total score is not positive. -/
theorem dualFactorWeights_valid_subset (sf : List FactorRecord)
    (h : ∃ s ∈ sf, s.roce.isSome = true) :
    (∀ p ∈ (calculateDualFactorWeights sf).1, 0 ≤ p.2 ∧ p.2 ≤ 1) ∧
    ((calculateDualFactorWeights sf).1.map Prod.snd).sum = 1 ∧
    (∀ p ∈ (calculateDualFactorWeights sf).1, ∃ s ∈ validStocks sf, p.1 = s.code) ∧
    ((0 < totalScoreOf (scoreStocks ((validStocks sf).map processStock)) →
        (calculateDualFactorWeights sf).1 =
          (scoreStocks ((validStocks sf).map processStock)).map
            (fun s => (s.code,
              s.score / totalScoreOf (scoreStocks ((validStocks sf).map processStock))))) ∧
      (¬ 0 < totalScoreOf (scoreStocks ((validStocks sf).map processStock)) →
        (calculateDualFactorWeights sf).1 =
          (scoreStocks ((validStocks sf).map processStock)).map
            (fun s => (s.code,
              1 / ((scoreStocks ((validStocks sf).map processStock)).length : ℚ))))) := by
  have hvne : validStocks sf ≠ [] := by
    obtain ⟨s, hs, hsome⟩ := h
    intro hc
    have hmem : s ∈ validStocks sf := List.mem_filter.mpr ⟨hs, hsome⟩
    rw [hc] at hmem
    exact absurd hmem (by simp)
  have hEmpty : (validStocks sf).isEmpty = false := by
    cases he : (validStocks sf).isEmpty with
    | false => rfl
    | true => exact absurd (List.isEmpty_iff.mp he) hvne
  have hW := dualFactorWeights_eq sf hEmpty
  have hlenpos : 0 < ((scoreStocks ((validStocks sf).map processStock)).length : ℚ) := by
    rw [scoreStocks_length]
    have : (validStocks sf).map processStock ≠ [] := by
      simpa using hvne
    have hl : 0 < ((validStocks sf).map processStock).length :=
      List.length_pos.mpr this
    exact_mod_cast hl
  have hscoreB := scoreStocks_bounds ((validStocks sf).map processStock)
  have hts0 : 0 ≤ totalScoreOf (scoreStocks ((validStocks sf).map processStock)) := by
    unfold totalScoreOf
    apply List.sum_nonneg
    intro x hx
    obtain ⟨sc, hsc, rfl⟩ := List.mem_map.mp hx
    exact (hscoreB sc hsc).1
  refine ⟨?_, ?_, ?_, ?_, ?_⟩
  · intro p hp
    rw [hW] at hp
    obtain ⟨sc, hsc, rfl⟩ := List.mem_map.mp hp
    by_cases hts : 0 < totalScoreOf (scoreStocks ((validStocks sf).map processStock))
    · simp only [hts, if_pos]
      constructor
      · exact div_nonneg (hscoreB sc hsc).1 (le_of_lt hts)
      · rw [div_le_one hts]
        unfold totalScoreOf
        exact List.single_le_sum
          (fun x hx => by
            obtain ⟨sc2, hsc2, rfl⟩ := List.mem_map.mp hx
            exact (hscoreB sc2 hsc2).1)
          _ (List.mem_map_of_mem ScoredStock.score hsc)
    · simp only [hts, if_neg, if_false]
      constructor
      · positivity
      · rw [div_le_one hlenpos]
        have hge : (1 : ℚ) ≤ ((scoreStocks ((validStocks sf).map processStock)).length : ℚ) := by
          have h1 : 1 ≤ (scoreStocks ((validStocks sf).map processStock)).length := by
            rw [scoreStocks_length]
            have : (validStocks sf).map processStock ≠ [] := by simpa using hvne
            exact List.length_pos.mpr this
          exact_mod_cast h1
        exact hge
  · rw [hW, sum_snd_scores]
    by_cases hts : 0 < totalScoreOf (scoreStocks ((validStocks sf).map processStock))
    · simp only [hts, if_true]
      rw [scores_sum_div]
      exact div_self (ne_of_gt hts)
    · simp only [hts, if_false]
      rw [sum_map_const_q, mul_one_div]
      exact div_self (ne_of_gt hlenpos)
  · intro p hp
    rw [hW] at hp
    obtain ⟨sc, hsc, rfl⟩ := List.mem_map.mp hp
    obtain ⟨q, hq, hcode⟩ := scoreStocks_codes _ sc hsc
    obtain ⟨s, hsv, rfl⟩ := List.mem_map.mp hq
    exact ⟨s, hsv, by simpa [processStock] using hcode⟩
  · intro hts
    rw [hW]
    simp only [hts, if_pos]
  · intro hts
    rw [hW]
    simp only [hts, if_neg, if_false]

/-- Witness for C5 at the spec's two-instrument example (one absent ROCE,
one ROCE = 10, both zero dividend yield): the weights sum to 1. -/
theorem dualFactorWeights_valid_subset_witness :
    ((calculateDualFactorWeights
        [⟨"A", 0, some 10, none⟩, ⟨"B", 5, none, none⟩]).1.map Prod.snd).sum = 1 :=
  (dualFactorWeights_valid_subset
    [⟨"A", 0, some 10, none⟩, ⟨"B", 5, none, none⟩]
    ⟨⟨"A", 0, some 10, none⟩, by decide, by decide⟩).2.1

/-! ### C3 — numerical degenerate cases, and C7 — net-value normalization -/

theorem insertAdd_isSome (m : List (Nat × Option ℚ)) (d : Nat) (v : Option ℚ)
    (hm : ∀ p ∈ m, p.2.isSome = true) (hv : v.isSome = true) :
    ∀ p ∈ insertAdd m d v, p.2.isSome = true := by
  induction m with
  | nil =>
    intro p hp
    simp only [insertAdd, List.mem_singleton] at hp
    subst hp
    exact hv
  | cons q rest ih =>
    intro p hp
    obtain ⟨d0, v0⟩ := q
    simp only [insertAdd] at hp
    by_cases hd : d0 = d
    · rw [if_pos hd] at hp
      rcases List.mem_cons.mp hp with h1 | h1
      · subst h1
        have hv0 : v0.isSome = true := hm (d0, v0) (by simp)
        obtain ⟨a, ha⟩ := Option.isSome_iff_exists.mp hv0
        obtain ⟨b, hb⟩ := Option.isSome_iff_exists.mp hv
        simp [jsAdd, ha, hb]
      · exact hm p (by simp [h1])
    · rw [if_neg hd] at hp
      rcases List.mem_cons.mp hp with h1 | h1
      · subst h1
        exact hm (d0, v0) (by simp)
      · exact ih (fun q hq => hm q (by simp [hq])) p h1

theorem foldl_insertAdd_isSome (key : PriceRow → Nat) (value : PriceRow → Option ℚ)
    (l : List PriceRow) :
    ∀ m : List (Nat × Option ℚ), (∀ p ∈ m, p.2.isSome = true) →
      (∀ r ∈ l, (value r).isSome = true) →
      ∀ p ∈ l.foldl (fun acc r => insertAdd acc (key r) (value r)) m,
        p.2.isSome = true := by
  induction l with
  | nil => intro m hm _ p hp; exact hm p hp
  | cons r rs ih =>
    intro m hm hl p hp
    exact ih (insertAdd m (key r) (value r))
      (insertAdd_isSome m (key r) (value r) hm (hl r (by simp)))
      (fun x hx => hl x (by simp [hx])) p hp

theorem stockContrib_isSome (weight : ℚ) (rows : List PriceRow)
    (m : List (Nat × Option ℚ)) (hm : ∀ p ∈ m, p.2.isSome = true)
    (hrows : ∀ r ∈ rows, ∃ c, r.close = some c ∧ c ≠ 0) :
    ∀ p ∈ stockContrib weight rows m, p.2.isSome = true := by
  unfold stockContrib
  have hperm : List.Perm (List.insertionSort priceRowLe rows) rows :=
    List.perm_insertionSort priceRowLe rows
  cases hs : List.insertionSort priceRowLe rows with
  | nil => exact hm
  | cons r0 rest =>
    have hmemsort : ∀ r ∈ r0 :: rest, r ∈ rows := by
      intro r hr
      rw [← hs] at hr
      exact hperm.mem_iff.mp hr
    obtain ⟨c0, hc0, hc0ne⟩ := hrows r0 (hmemsort r0 (by simp))
    apply foldl_insertAdd_isSome _ _ (r0 :: rest) m hm
    intro r hr
    obtain ⟨c, hc, -⟩ := hrows r (hmemsort r hr)
    simp [jsDivOpt, hc, hc0, hc0ne]

theorem mergedNetValue_isSome (sd : List StockData) (w : String → ℚ)
    (hsd : ∀ s ∈ sd, ∀ rows, s.data = some rows →
      ∀ r ∈ rows, ∃ c, r.close = some c ∧ c ≠ 0) :
    ∀ p ∈ mergedNetValue sd w, p.2.isSome = true := by
  unfold mergedNetValue
  have hfold : ∀ (l : List StockData), (∀ s ∈ l, ∀ rows, s.data = some rows →
      ∀ r ∈ rows, ∃ c, r.close = some c ∧ c ≠ 0) →
      ∀ (m : List (Nat × Option ℚ)), (∀ p ∈ m, p.2.isSome = true) →
      ∀ p ∈ l.foldl
        (fun m stock =>
          match stock.data with
          | none => m
          | some [] => m
          | some (r :: rs) =>
            if w stock.code = 0 then m
            else stockContrib (w stock.code) (r :: rs) m)
        m, p.2.isSome = true := by
    intro l
    induction l with
    | nil => intro _ m hm p hp; exact hm p hp
    | cons stock rest ih =>
      intro hl m hm
      simp only [List.foldl_cons]
      apply ih (fun s hsr => hl s (by simp [hsr]))
      cases hdata : stock.data with
      | none => simpa [hdata] using hm
      | some rows =>
        cases rows with
        | nil => simpa [hdata] using hm
        | cons r rs =>
          simp only [hdata]
          by_cases hw : w stock.code = 0
          · rw [if_pos hw]; exact hm
          · rw [if_neg hw]
            exact stockContrib_isSome _ _ m hm
              (hl stock (by simp) (r :: rs) hdata)
  intro p hp
  have hperm := List.perm_insertionSort dateLe
    (sd.foldl
      (fun m stock =>
        match stock.data with
        | none => m
        | some [] => m
        | some (r :: rs) =>
          if w stock.code = 0 then m
          else stockContrib (w stock.code) (r :: rs) m)
      [])
  exact hfold sd hsd [] (by simp) p (hperm.mem_iff.mp hp)

theorem calculatePortfolioNetValue_isSome (sd : List StockData) (w : String → ℚ)
    (hsd : ∀ s ∈ sd, ∀ rows, s.data = some rows →
      ∀ r ∈ rows, ∃ c, r.close = some c ∧ c ≠ 0) :
    ∀ p ∈ calculatePortfolioNetValue sd w, p.2 ≠ none := by
  have hall := mergedNetValue_isSome sd w hsd
  unfold calculatePortfolioNetValue
  cases hm : mergedNetValue sd w with
  | nil => intro p hp; exact absurd hp (by simp)
  | cons q rest =>
    obtain ⟨d0, v0⟩ := q
    have hv0 : v0.isSome = true := hall (d0, v0) (by rw [hm]; simp)
    obtain ⟨iv, hiv⟩ := Option.isSome_iff_exists.mp hv0
    subst hiv
    dsimp only
    by_cases hpos : 0 < iv
    · rw [if_pos hpos]
      intro p hp
      obtain ⟨q, hq, rfl⟩ := List.mem_map.mp hp
      have hq2 : q.2.isSome = true := hall q (by rw [hm]; exact hq)
      obtain ⟨a, ha⟩ := Option.isSome_iff_exists.mp hq2
      simp [ha]
    · rw [if_neg hpos]
      intro p hp
      have hp2 : p.2.isSome = true := hall p (by rw [hm]; exact hp)
      obtain ⟨a, ha⟩ := Option.isSome_iff_exists.mp hp2
      simp [ha]

theorem jsOr_some_one (x : Option ℚ) : ∃ k, jsOr x (some 1) = some k ∧ k ≠ 0 := by
  cases x with
  | none => exact ⟨1, rfl, one_ne_zero⟩
  | some t =>
    by_cases ht : t = 0
    · exact ⟨1, by simp [jsOr, ht], one_ne_zero⟩
    · exact ⟨t, by simp [jsOr, ht], ht⟩

theorem jsOr_isSome (nav close : Option ℚ)
    (h : truthyO nav = true ∨ close.isSome = true) :
    (jsOr nav close).isSome = true := by
  cases nav with
  | none =>
    rcases h with h | h
    · exact absurd h (by simp [truthyO])
    · simpa [jsOr] using h
  | some t =>
    by_cases ht : t = 0
    · rcases h with h | h
      · rw [ht] at h
        exact absurd h (by simp [truthyO])
      · simpa [jsOr, ht] using h
    · simp [jsOr, ht]

theorem calculateETFNetValue_isSome (rows : List EtfRow)
    (hrows : ∀ r ∈ rows, truthyO r.nav = true ∨ r.close.isSome = true) :
    ∀ p ∈ calculateETFNetValue rows, p.2 ≠ none := by
  unfold calculateETFNetValue
  have hperm : List.Perm (List.insertionSort etfRowLe rows) rows :=
    List.perm_insertionSort etfRowLe rows
  cases hs : List.insertionSort etfRowLe rows with
  | nil => intro p hp; exact absurd hp (by simp)
  | cons r0 rest =>
    have hmemsort : ∀ r ∈ r0 :: rest, r ∈ rows := by
      intro r hr
      rw [← hs] at hr
      exact hperm.mem_iff.mp hr
    obtain ⟨k, hk, hkne⟩ := jsOr_some_one (jsOr r0.nav r0.close)
    intro p hp
    dsimp only at hp
    rw [hk] at hp
    obtain ⟨r, hr, rfl⟩ := List.mem_map.mp hp
    have hnum : (jsOr r.nav r.close).isSome = true :=
      jsOr_isSome r.nav r.close (hrows r (hmemsort r hr))
    obtain ⟨n, hn⟩ := Option.isSome_iff_exists.mp hnum
    simp [jsDivOpt, hn, hkne]

theorem rangeOr1_ne_zero (lo hi : ℚ) : rangeOr1 lo hi ≠ 0 := by
  unfold rangeOr1
  by_cases h : hi - lo = 0
  · rw [if_pos h]; exact one_ne_zero
  · rw [if_neg h]; exact h

theorem scores_len_cast_pos (sf : List FactorRecord) (hvne : validStocks sf ≠ []) :
    0 < ((scoreStocks ((validStocks sf).map processStock)).length : ℚ) := by
  rw [scoreStocks_length]
  have hne : (validStocks sf).map processStock ≠ [] := by simpa using hvne
  have hl : 0 < ((validStocks sf).map processStock).length := List.length_pos.mpr hne
  exact_mod_cast hl

/-- C3 (amended): the zero-range, zero-total-score and non-positive
leading-value degenerate cases are defused by their fallback branches, so
`calculateDualFactorWeights` never divides by zero into its output;
`calculatePortfolioNetValue` emits no non-finite value provided every
consumed close price is present and nonzero; `calculateETFNetValue` emits
no non-finite value provided every row has a truthy NAV or a present close
(the claim's unconditional form fails when both fields of a row are absent,
see `calculateETFNetValue_nan_counterexample`). -/
theorem numericFallbacks_no_nan :
    (∀ lo hi : ℚ, rangeOr1 lo hi ≠ 0) ∧
    (∀ sf : List FactorRecord, validStocks sf ≠ [] →
        0 < totalScoreOf (scoreStocks ((validStocks sf).map processStock)) ∨
        ((scoreStocks ((validStocks sf).map processStock)).length : ℚ) ≠ 0) ∧
    (∀ sf : List FactorRecord, ∀ p ∈ (calculateDualFactorWeights sf).1,
        validStocks sf = [] →
        (sf.length : ℚ) ≠ 0 ∧ p.2 = 1 / (sf.length : ℚ)) ∧
    (∀ (sd : List StockData) (w : String → ℚ),
        (∀ s ∈ sd, ∀ rows, s.data = some rows →
          ∀ r ∈ rows, ∃ c, r.close = some c ∧ c ≠ 0) →
        ∀ p ∈ calculatePortfolioNetValue sd w, p.2 ≠ none) ∧
    (∀ rows : List EtfRow,
        (∀ r ∈ rows, truthyO r.nav = true ∨ r.close.isSome = true) →
        ∀ p ∈ calculateETFNetValue rows, p.2 ≠ none) := by
  refine ⟨rangeOr1_ne_zero, ?_, ?_, calculatePortfolioNetValue_isSome,
    calculateETFNetValue_isSome⟩
  · intro sf hvne
    exact Or.inr (ne_of_gt (scores_len_cast_pos sf hvne))
  · intro sf p hp hve
    have hEmpty : (validStocks sf).isEmpty = true := by simp [hve]
    simp only [calculateDualFactorWeights, hEmpty, if_true] at hp
    obtain ⟨srec, hs, rfl⟩ := List.mem_map.mp hp
    have hlen : 0 < sf.length := List.length_pos.mpr (List.ne_nil_of_mem hs)
    have hcast : (0 : ℚ) < (sf.length : ℚ) := by exact_mod_cast hlen
    exact ⟨ne_of_gt hcast, rfl⟩

/-- Counterexample to C3 as stated: a fund-series row with both the NAV and
close fields absent produces an output entry whose net value is `NaN`
(modelled `none`) — the `|| 1` fallback guards only the denominator. -/
theorem calculateETFNetValue_nan_counterexample :
    calculateETFNetValue [⟨20230103, none, none⟩] = [(20230103, none)] := by
  decide

/-- Witness for C3 (amended), discharging the ETF-series hypothesis at a
concrete one-row table with a present NAV. -/
theorem numericFallbacks_no_nan_witness :
    (∀ r ∈ [(⟨1, some 2, none⟩ : EtfRow)],
        truthyO r.nav = true ∨ r.close.isSome = true) ∧
    ((1, some (1 : ℚ)) : Nat × Option ℚ).2 ≠ none := by
  refine ⟨by decide, ?_⟩
  apply numericFallbacks_no_nan.2.2.2.2 [⟨1, some 2, none⟩] (by decide)
  have heval : calculateETFNetValue [⟨1, some 2, none⟩] = [(1, some 1)] := by
    simp [calculateETFNetValue, List.insertionSort, List.orderedInsert, jsOr, jsDivOpt]
  rw [heval]
  simp

/-- C7: when the merged per-date sum series starts with a strictly positive
value, `calculatePortfolioNetValue` returns that date-ascending series with
every value divided by the first value, so the first returned point is
`1.0`. -/
theorem calculatePortfolioNetValue_normalizes (sd : List StockData)
    (w : String → ℚ) (d0 : Nat) (iv : ℚ) (rest : List (Nat × Option ℚ))
    (hm : mergedNetValue sd w = (d0, some iv) :: rest) (hpos : 0 < iv) :
    calculatePortfolioNetValue sd w =
      (d0, some 1) :: rest.map (fun p => (p.1, p.2.map (fun x => x / iv))) ∧
    List.Sorted dateLe (calculatePortfolioNetValue sd w) := by
  have hsorted : List.Sorted dateLe (mergedNetValue sd w) := by
    unfold mergedNetValue
    exact List.sorted_insertionSort dateLe _
  have heq : calculatePortfolioNetValue sd w =
      (mergedNetValue sd w).map (fun p => (p.1, p.2.map (fun x => x / iv))) := by
    unfold calculatePortfolioNetValue
    rw [hm]
    dsimp only
    rw [if_pos hpos]
  constructor
  · rw [heq, hm]
    simp [div_self (ne_of_gt hpos)]
  · rw [heq]
    exact List.Pairwise.map _ (fun _ _ hab => hab) hsorted

/-- Witness for C7 realizing the spec's example: merged sums
`[(d1, 100), (d2, 110), (d3, 99)]` normalize to
`[(d1, 1.0), (d2, 1.1), (d3, 0.99)]`. -/
theorem calculatePortfolioNetValue_normalizes_witness :
    mergedNetValue
        [⟨"A", some [⟨1, some 1⟩, ⟨2, some (11 / 10)⟩, ⟨3, some (99 / 100)⟩]⟩]
        (fun _ => 100) =
      [(1, some 100), (2, some 110), (3, some 99)] ∧
    (0 : ℚ) < 100 ∧
    calculatePortfolioNetValue
        [⟨"A", some [⟨1, some 1⟩, ⟨2, some (11 / 10)⟩, ⟨3, some (99 / 100)⟩]⟩]
        (fun _ => 100) =
      [(1, some 1), (2, some (11 / 10)), (3, some (99 / 100))] := by
  have hm : mergedNetValue
      [⟨"A", some [⟨1, some 1⟩, ⟨2, some (11 / 10)⟩, ⟨3, some (99 / 100)⟩]⟩]
      (fun _ => 100) =
      [(1, some 100), (2, some 110), (3, some 99)] := by
    simp [mergedNetValue, stockContrib, insertAdd, jsDivOpt, jsAdd,
      List.insertionSort, List.orderedInsert, priceRowLe, dateLe]
    norm_num
  have h := calculatePortfolioNetValue_normalizes _ _ 1 100
    [(2, some 110), (3, some 99)] hm (by norm_num)
  refine ⟨hm, by norm_num, ?_⟩
  rw [h.1]
  norm_num

end EtfJs
